import Mathlib

/-!
# Verification of the WhatsApp chat analyzer's ingestion and aggregation core

Shallow embedding of the core logic of `src/App.js` (the `WhatsAppAnalyzer`
component): CSV schema validation, date/time parsing (`parseDate`), the
ingestion sort, the statistics aggregation (`calculateStats`), and the
search filter (`filteredChatData`).

Modelling conventions:
* CSV parsing itself is done by the external PapaParse library; its output —
  the header field list and the list of decoded rows — is the model's input.
* JavaScript numbers are modelled as `Int` (all relevant arithmetic stays
  integral); `NaN` appears via `Option Int` (`none` = `NaN`).
* `new Date()` ("now") is modelled by passing the current epoch-milliseconds
  value explicitly as `nowMs`.
* `new Date(y, m, d, hh, mm)` is modelled by a proleptic-Gregorian
  civil-to-epoch computation followed by ECMA `TimeClip` (values beyond
  ±8.64e15 ms are Invalid); the host timezone is taken to be UTC.
* The Unicode character classes of the tokenizer's regexes (`\p{L}`, `\p{N}`,
  `\s`) and `toLowerCase` are modelled over their ASCII subsets.
-/

namespace WhatsApp

/-- One decoded CSV row, exactly the seven required columns, all read as
strings by PapaParse (`header: true`). -/
structure Row where
  datetime : String
  date : String
  time : String
  hour : String
  weekday : String
  sender : String
  message : String
deriving DecidableEq

/-- A row after `handleFileUpload`'s map step: the spread `{...row, datetime:
new Date(parseDate(row.date, row.time))}` replaces the raw `datetime` column
by the derived `Date`, here its epoch-ms value (`none` = Invalid Date / NaN). -/
structure PRow where
  date : String
  time : String
  hour : String
  weekday : String
  sender : String
  message : String
  datetime : Option Int
deriving DecidableEq

/-! ## `parseInt` and `parseDate` -/

/-- Value of the maximal leading decimal-digit run, `none` when there is no
leading digit (JS `parseInt` returning `NaN`). -/
def parseIntCore (cs : List Char) : Option Nat :=
  let ds := cs.takeWhile Char.isDigit
  if ds.isEmpty then none
  else some (ds.foldl (fun a c => a * 10 + (c.toNat - 48)) 0)

/-- JS `parseInt(s, 10)`: skip leading whitespace, optional sign, then the
maximal digit prefix; `none` models `NaN`. -/
def parseIntJS (s : String) : Option Int :=
  let cs := s.toList.dropWhile Char.isWhitespace
  match cs with
  | '-' :: rest => (parseIntCore rest).map (fun n => -(n : Int))
  | '+' :: rest => (parseIntCore rest).map (fun n => (n : Int))
  | _ => (parseIntCore cs).map (fun n => (n : Int))

/-- Value of a hexadecimal digit. -/
def hexVal (c : Char) : Nat :=
  if c.isDigit then c.toNat - 48
  else if 'a' ≤ c ∧ c ≤ 'f' then c.toNat - 87
  else c.toNat - 55

/-- Value of the maximal leading hex-digit run (`none` when there is none). -/
def parseHexCore (cs : List Char) : Option Nat :=
  let ds := cs.takeWhile (fun c =>
    c.isDigit || ('a' ≤ c && c ≤ 'f') || ('A' ≤ c && c ≤ 'F'))
  if ds.isEmpty then none
  else some (ds.foldl (fun a c => a * 16 + hexVal c) 0)

/-- Radix-free `parseInt` digits: a `0x`/`0X` prefix switches to hexadecimal,
anything else is decimal. -/
def parseIntNoRadixCore (cs : List Char) : Option Nat :=
  match cs with
  | '0' :: 'x' :: rest => parseHexCore rest
  | '0' :: 'X' :: rest => parseHexCore rest
  | _ => parseIntCore cs

/-- JS `parseInt(s)` with no radix argument (as in the branch condition
`parseInt(dateParts[0]) > 12`): whitespace, optional sign, then hex for a
`0x` prefix, else decimal. -/
def parseIntNoRadix (s : String) : Option Int :=
  let cs := s.toList.dropWhile Char.isWhitespace
  match cs with
  | '-' :: rest => (parseIntNoRadixCore rest).map (fun n => -(n : Int))
  | '+' :: rest => (parseIntNoRadixCore rest).map (fun n => (n : Int))
  | _ => (parseIntNoRadixCore cs).map (fun n => (n : Int))

/-- JS `o > n` where `o` may be `NaN`: `NaN > n` is `false`. -/
def optGt (o : Option Int) (n : Int) : Bool :=
  match o with
  | some v => n < v
  | none => false

/-- JS `o < n` where `o` may be `NaN`: `NaN < n` is `false`. -/
def optLt (o : Option Int) (n : Int) : Bool :=
  match o with
  | some v => v < n
  | none => false

/-- Result of `parseDate(dateStr, timeStr)`:
`nullDate` for the `if (!dateStr) return null;` path (empty date string),
`nowDate` for the `return new Date();` fallbacks, and `mkDate year month day
hours minutes` for `new Date(year, month, day, hours, minutes)` (each
component `none` when the corresponding `parseInt` gave `NaN`). -/
inductive JSDate where
  | nullDate : JSDate
  | nowDate : JSDate
  | mkDate (year month day hours minutes : Option Int) : JSDate
deriving DecidableEq

/-- JS `String.prototype.split` with a one-character separator, over the
string's character list (`List.splitOn` keeps empty pieces between adjacent
separators, exactly like JS `split`). -/
def jsSplit (sep : Char) (s : String) : List String :=
  (s.data.splitOn sep).map String.mk

/-- The separator detection of `parseDate`: split on `/` if present, else on
`-` if present, else no parts (the unknown-format fallback). -/
def dateParts (dateStr : String) : Option (List String) :=
  if dateStr.data.contains '/' then some (jsSplit '/' dateStr)
  else if dateStr.data.contains '-' then some (jsSplit '-' dateStr)
  else none

/-- The `(hours, minutes)` of `parseDate`: both `0` unless `timeStr` is truthy
and splits on `:` into at least two parts, in which case the first two parts
are `parseInt`ed. -/
def timeParts (timeStr : String) : Option Int × Option Int :=
  if timeStr = "" then (some 0, some 0)
  else
    let tp := jsSplit ':' timeStr
    if 2 ≤ tp.length then (parseIntJS (tp.getD 0 ""), parseIntJS (tp.getD 1 ""))
    else (some 0, some 0)

/-- `parseDate(dateStr, timeStr)` of `src/App.js`. The branch condition
`parseInt(dateParts[0]) > 12` passes no radix (so a `0x` first component is
read as hex there), while the component assignments use radix 10. The year
is promoted by `+ 2000` only in the `else` branch (first component not
`> 12`) and only when `year < 100`. -/
def parseDate (dateStr timeStr : String) : JSDate :=
  if dateStr = "" then .nullDate
  else
    match dateParts dateStr with
    | none => .nowDate
    | some parts =>
      if parts.length = 3 then
        let day := parseIntJS (parts.getD 0 "")
        let month := (parseIntJS (parts.getD 1 "")).map (fun m => m - 1)
        let rawYear := parseIntJS (parts.getD 2 "")
        let year :=
          if optGt (parseIntNoRadix (parts.getD 0 "")) 12 then rawYear
          else if optLt rawYear 100 then rawYear.map (fun y => y + 2000)
          else rawYear
        let hm := timeParts timeStr
        .mkDate year month day hm.1 hm.2
      else .nowDate

/-- The year component of a constructed date (`none` for the `null` and
`now` results, which carry no year argument). -/
def JSDate.yearOf : JSDate → Option (Option Int)
  | .mkDate y _ _ _ _ => some y
  | _ => none

/-! ## `new Date(...)` epoch value -/

/-- Days from the epoch (1970-01-01) to civil date `(y, m, d)` with
`m ∈ 1..12`, proleptic Gregorian (`d` may lie outside the month and simply
shifts the result, matching JS `Date` day normalization). -/
def daysFromCivil (y m d : Int) : Int :=
  let y' := if m ≤ 2 then y - 1 else y
  let era := Int.fdiv y' 400
  let yoe := y' - era * 400
  let mp := Int.emod (m + 9) 12
  let doy := Int.fdiv (153 * mp + 2) 5 + d - 1
  let doe := yoe * 365 + Int.fdiv yoe 4 - Int.fdiv yoe 100 + doy
  era * 146097 + doe - 719468

/-- Epoch-ms of JS `new Date(year, month, day, hours, minutes)`: a year
argument in `0..99` means `1900 + year`, the 0-based month overflows into the
year, and out-of-range day/hours/minutes simply add on (timezone = UTC). -/
def newDateMs (year month day hours minutes : Int) : Int :=
  let y1 := if 0 ≤ year ∧ year ≤ 99 then year + 1900 else year
  let ym := y1 * 12 + month
  (daysFromCivil (Int.fdiv ym 12) (Int.emod ym 12 + 1) day * 86400
    + hours * 3600 + minutes * 60) * 1000

/-- ECMA `TimeClip`: a time value whose magnitude exceeds 8.64e15 ms is an
Invalid Date (`NaN`). -/
def timeClip (ms : Int) : Option Int :=
  if ms < -8640000000000000 ∨ 8640000000000000 < ms then none else some ms

/-- Epoch-ms of `new Date(parseDate(...))` as `handleFileUpload` computes it:
`new Date(null)` is the epoch (`0`), a `Date` argument keeps its value, a
`NaN` component gives an Invalid Date (`none`), and the constructor applies
`TimeClip` (an out-of-range instant is also Invalid). -/
def jsDateValue (nowMs : Int) : JSDate → Option Int
  | .nullDate => some 0
  | .nowDate => some nowMs
  | .mkDate y m d hh mm =>
    match y, m, d, hh, mm with
    | some y, some m, some d, some hh, some mm => timeClip (newDateMs y m d hh mm)
    | _, _, _, _, _ => none

/-- The map step of `handleFileUpload`: spread the row and overwrite
`datetime` with the derived `Date`'s epoch value. -/
def addDatetime (nowMs : Int) (r : Row) : PRow :=
  { date := r.date, time := r.time, hour := r.hour, weekday := r.weekday
    sender := r.sender, message := r.message
    datetime := jsDateValue nowMs (parseDate r.date r.time) }

/-! ## The ingestion sort

`parsedData.sort((a, b) => a.datetime - b.datetime)`: `Array.prototype.sort`
is stable (ES2019+), and `CompareArrayElements` turns a `NaN` comparator
result into `+0` (a tie). A stable sort for a consistent comparator is
uniquely determined, so it is modelled by insertion sort under `dtLe`. -/

/-- `a.datetime - b.datetime ≤ 0` under `CompareArrayElements`: a `NaN`
difference counts as a tie. -/
def dtLe (a b : Option Int) : Bool :=
  match a, b with
  | some x, some y => decide (x ≤ y)
  | _, _ => true

/-- Stable insertion (generic): place `x` before the first element it is
`le`-below-or-tied-with, so ties keep their original relative order. -/
def insertBy (le : α → α → Bool) (x : α) : List α → List α
  | [] => [x]
  | y :: ys => if le x y then x :: y :: ys else y :: insertBy le x ys

/-- Stable sort (generic): insertion sort. -/
def sortBy (le : α → α → Bool) (l : List α) : List α :=
  l.foldr (insertBy le) []

/-- The `.sort((a, b) => a.datetime - b.datetime)` step. -/
def sortByDatetime (l : List PRow) : List PRow :=
  sortBy (fun a b => dtLe a.datetime b.datetime) l

/-! ## Schema validation and ingestion -/

/-- The required CSV columns, in the order `handleFileUpload` lists them. -/
def requiredColumns : List String :=
  ["datetime", "date", "time", "hour", "weekday", "sender", "message"]

/-- `requiredColumns.filter(col => !headers.includes(col))`. -/
def missingColumns (headers : List String) : List String :=
  requiredColumns.filter (fun c => !(headers.contains c))

/-- Ingestion: reject when any required column is missing from the header
(no records produced), else map the rows to derived-timestamp records and
sort. The error carries the missing-column list of the error message. -/
def ingest (nowMs : Int) (headers : List String) (rows : List Row) :
    Except (List String) (List PRow) :=
  if missingColumns headers = [] then
    .ok (sortByDatetime (rows.map (addDatetime nowMs)))
  else
    .error (missingColumns headers)

/-! ## `calculateStats`: the weekday pass

`messagesByWeekday` and `daysByWeekday` start from the seven literal weekday
keys; the `forEach` updates both under one `hasOwnProperty(day)` guard, so a
row whose `weekday` is not one of the seven keys updates neither map. The
guard is modelled on each map separately (their key sets coincide
throughout). JS `Set` iteration/insertion keeps first-occurrence order, so a
set of dates is a first-occurrence-deduplicated list. -/

/-- The seven weekday keys, in the literal order of the source object. -/
def weekdayNames : List String :=
  ["Sunday", "Monday", "Tuesday", "Wednesday", "Thursday", "Friday", "Saturday"]

/-- One row's effect on `messagesByWeekday`: `if
(messagesByWeekday.hasOwnProperty(day)) messagesByWeekday[day]++`. -/
def countStep (m : List (String × Nat)) (r : PRow) : List (String × Nat) :=
  if m.any (fun e => e.1 == r.weekday) then
    m.map (fun e => if e.1 == r.weekday then (e.1, e.2 + 1) else e)
  else m

/-- `messagesByWeekday` after the `forEach` over the data. -/
def messagesByWeekday (data : List PRow) : List (String × Nat) :=
  data.foldl countStep (weekdayNames.map (fun d => (d, 0)))

/-- One row's effect on `daysByWeekday`: under the same guard,
`daysByWeekday[day].add(row.date)` (a `Set` add: append if absent). -/
def dateStep (m : List (String × List String)) (r : PRow) :
    List (String × List String) :=
  if m.any (fun e => e.1 == r.weekday) then
    m.map (fun e => if e.1 == r.weekday then
      (e.1, if e.2.contains r.date then e.2 else e.2 ++ [r.date]) else e)
  else m

/-- `daysByWeekday` after the `forEach` over the data. -/
def daysByWeekday (data : List PRow) : List (String × List String) :=
  data.foldl dateStep (weekdayNames.map (fun d => (d, [])))

/-- Value at key `k` of an association list of counts (`0` when absent). -/
def lookupCount (m : List (String × Nat)) (k : String) : Nat :=
  ((m.find? (fun e => e.1 == k)).map (fun e => e.2)).getD 0

/-- Value at key `k` of an association list of date sets (`[]` when absent). -/
def lookupDates (m : List (String × List String)) (k : String) : List String :=
  ((m.find? (fun e => e.1 == k)).map (fun e => e.2)).getD []

/-- `avgMessagesByWeekday`: over `Object.keys(messagesByWeekday)` (the seven
literal keys in order), `daysCount > 0 ? messages / daysCount : 0`, with JS
number division modelled as exact rational division. -/
def avgMessagesByWeekday (data : List PRow) : List (String × ℚ) :=
  weekdayNames.map (fun d =>
    let daysCount := (lookupDates (daysByWeekday data) d).length
    (d, if 0 < daysCount then
      (lookupCount (messagesByWeekday data) d : ℚ) / (daysCount : ℚ)
    else 0))

/-- Accumulating the verbatim dates of a stream into a JS `Set` (append on
first occurrence). -/
def addDates (acc : List String) : List String → List String
  | [] => acc
  | x :: xs => addDates (if acc.contains x then acc else acc ++ [x]) xs

/-- Concrete rows for the C2 witness: two already-timestamped rows plus an
out-of-order third, all with valid derived timestamps. -/
def c2rows : List Row :=
  [{ datetime := "x", date := "02/01/2024", time := "10:00", hour := "10",
     weekday := "Tuesday", sender := "A", message := "hello" },
   { datetime := "x", date := "01/01/2024", time := "09:30", hour := "9",
     weekday := "Monday", sender := "B", message := "hi" },
   { datetime := "x", date := "01/01/2024", time := "09:30", hour := "9",
     weekday := "Monday", sender := "C", message := "tie" }]

/-! ## Plain-object count maps, `Object.entries`, and the most active day -/

/-- The property names of `Object.prototype` (ES2023 plus the Annex B
accessors): reading `obj[k]` on a plain object consults these through the
prototype chain, so the create-or-increment pattern sees a truthy inherited
value (or, for `__proto__`, never creates an own key) and miscounts. -/
def objectProtoKeys : List String :=
  ["constructor", "hasOwnProperty", "isPrototypeOf", "propertyIsEnumerable",
   "toLocaleString", "toString", "valueOf", "__proto__", "__defineGetter__",
   "__defineSetter__", "__lookupGetter__", "__lookupSetter__"]

/-- The create-or-increment pattern `if (!obj[k]) obj[k] = 0; obj[k]++` on a
plain object, modelled as an insertion-ordered association list of own
properties. Faithful for keys that are not `Object.prototype` property
names (`objectProtoKeys`), where the falsy read sees an inherited value:
the phrase keys of `phraseCounts` contain a space so none is such a name,
and the most-active-day theorem excludes them by hypothesis. -/
def bumpKey (m : List (String × Nat)) (k : String) : List (String × Nat) :=
  if m.any (fun e => e.1 == k) then
    m.map (fun e => if e.1 == k then (e.1, e.2 + 1) else e)
  else m ++ [(k, 1)]

/-- `messagesByDate` after the `forEach` over the data (keys are the verbatim
`date` strings, in first-occurrence order). -/
def messagesByDate (data : List PRow) : List (String × Nat) :=
  data.foldl (fun m r => bumpKey m r.date) []

/-- Numeric value of a digit string. -/
def strToNat (s : String) : Nat :=
  s.data.foldl (fun a c => a * 10 + (c.toNat - 48)) 0

/-- Is `s` a canonical array-index string: nonempty, all digits, no leading
zero (except `"0"` itself), value below `2^32 - 1`? ECMA-262 object property
enumeration (`OrdinaryOwnPropertyKeys`) lists such keys first, in ascending
numeric order, before the other string keys in insertion order. -/
def isArrayIndex (s : String) : Bool :=
  !s.data.isEmpty && s.data.all Char.isDigit &&
    (s == "0" || !(s.data.headD ' ' == '0')) && strToNat s < 4294967295

/-- `Object.entries` of a string-keyed object built in insertion order:
array-index keys first in ascending numeric order, then the remaining keys
in insertion order. -/
def jsObjEntries (m : List (String × Nat)) : List (String × Nat) :=
  sortBy (fun a b => strToNat a.1 ≤ strToNat b.1)
      (m.filter (fun e => isArrayIndex e.1)) ++
    m.filter (fun e => !(isArrayIndex e.1))

/-- `mostActiveDay`: `Object.entries(messagesByDate).reduce((max, [date,
count]) => count > max[1] ? [date, count] : max, ['', 0])`. -/
def mostActiveDay (data : List PRow) : String × Nat :=
  (jsObjEntries (messagesByDate data)).foldl
    (fun mx e => if mx.2 < e.2 then e else mx) ("", 0)

/-- `e` is the first pair of `l` attaining the maximum count: no pair counts
higher, and every pair before `e`'s (first) position counts strictly lower. -/
def FirstMax (l : List (String × Nat)) (e : String × Nat) : Prop :=
  (∀ f ∈ l, f.2 ≤ e.2) ∧ ∃ l₁ l₂, l = l₁ ++ e :: l₂ ∧ ∀ f ∈ l₁, f.2 < e.2

/-! ## Word/phrase tokenization and `topPhrases` -/

/-- `message.toLowerCase().replace(/[^\p{L}\p{N}\s]/gu, '').split(/\s+/)
.filter(word => word.length > 1)`: lower-case, strip every character that is
neither letter/digit nor whitespace, split on whitespace, keep tokens longer
than 1 (ASCII model of the Unicode classes; splitting at single whitespace
characters plus the length filter equals whitespace-run splitting). -/
def phraseTokens (msg : String) : List String :=
  ((((msg.data.map Char.toLower).filter
      (fun c => c.isAlphanum || c.isWhitespace)).splitOnP
    Char.isWhitespace).map String.mk).filter (fun w => 1 < w.length)

/-- The 2-token windows (`for (i = 0; i < words.length - 1; i++)`), joined
by one space. -/
def phrases2 : List String → List String
  | a :: b :: rest => (a ++ " " ++ b) :: phrases2 (b :: rest)
  | _ => []

/-- The 3-token windows (`for (i = 0; i < words.length - 2; i++)`). -/
def phrases3 : List String → List String
  | a :: b :: c :: rest =>
    (a ++ " " ++ b ++ " " ++ c) :: phrases3 (b :: c :: rest)
  | _ => []

/-- All phrases the data contributes to `phraseCounts`, in loop order
(per message: the 2-gram loop, then the 3-gram loop; falsy messages are
skipped). -/
def allPhrases (data : List PRow) : List String :=
  data.foldr (fun r acc =>
    if r.message = "" then acc
    else phrases2 (phraseTokens r.message) ++
      phrases3 (phraseTokens r.message) ++ acc) []

/-- `phraseCounts` as an insertion-ordered association list. -/
def phraseCounts (data : List PRow) : List (String × Nat) :=
  (allPhrases data).foldl bumpKey []

/-- `topPhrases`: `Object.entries(phraseCounts).filter(([, count]) => count
>= 3).sort((a, b) => b[1] - a[1]).slice(0, 30)` (subtraction comparator =
stable sort by descending count). -/
def topPhrases (data : List PRow) : List (String × Nat) :=
  (sortBy (fun a b => b.2 ≤ a.2)
    ((jsObjEntries (phraseCounts data)).filter (fun e => 3 ≤ e.2))).take 30

/-! ## The search filter and the per-sender summary -/

/-- JS `toLowerCase`, over the ASCII subset. -/
def jsToLower (s : String) : String :=
  String.mk (s.data.map Char.toLower)

/-- Does the first list lead the second (needle starts the haystack)? -/
def leadsWith : List Char → List Char → Bool
  | [], _ => true
  | _ :: _, [] => false
  | a :: as, b :: bs => a == b && leadsWith as bs

/-- Does the needle occur as a contiguous run within the haystack? -/
def occursWithin (n : List Char) : List Char → Bool
  | [] => n.isEmpty
  | c :: t => leadsWith n (c :: t) || occursWithin n t

/-- JS `hay.includes(needle)`. -/
def jsIncludes (hay needle : String) : Bool :=
  occursWithin needle.data hay.data

/-- `filteredChatData`: with a truthy `searchTerm` and nonempty data, keep
the records whose truthy `message`, lower-cased, contains the lower-cased
term; otherwise the data unchanged. -/
def filteredChatData (searchTerm : String) (chatData : List PRow) :
    List PRow :=
  if searchTerm ≠ "" ∧ 0 < chatData.length then
    chatData.filter (fun msg =>
      !(msg.message == "") &&
        jsIncludes (jsToLower msg.message) (jsToLower searchTerm))
  else chatData

/-- First-occurrence deduplication: JS `Set` insertion order, as produced by
`[...new Set(l)]`. -/
def firstDedup : List String → List String
  | [] => []
  | k :: ks => k :: (firstDedup ks).filter (fun x => !(x == k))

/-- A concrete record for witnesses. -/
def mkRow (wd dt sd msg : String) : PRow :=
  { date := dt, time := "10:00", hour := "10", weekday := wd, sender := sd,
    message := msg, datetime := some 0 }

/-- Witness data for C8: a matching message, a non-matching one, and an
empty one. -/
def c8rows : List PRow :=
  [mkRow "Monday" "01/01/2024" "A" "Say Hello World",
   mkRow "Monday" "01/01/2024" "B" "nothing here",
   mkRow "Monday" "01/01/2024" "C" ""]

/-- A 32-token message: its 2-gram windows are `"aa ab"` … `"be bf"` (31 of
them) and its 3-gram windows `"aa ab ac"` … `"bd be bf"` (30 of them). -/
def msg32 : String :=
  "aa ab ac ad ae af ag ah ai aj ak al am an ao ap aq ar as at au av aw ax ay az ba bb bc bd be bf"

/-- Counterexample data for C6: three identical rows whose message has 32
tokens, so 61 distinct phrases each occur exactly 3 times. -/
def c6rows : List PRow :=
  [mkRow "Monday" "01/01/2024" "A" msg32,
   mkRow "Monday" "01/01/2024" "A" msg32,
   mkRow "Monday" "01/01/2024" "A" msg32]

/-- Counterexample data for C7: the verbatim dates `"1"` and `"0"` are
canonical array-index strings, so `Object.entries` reorders them. -/
def c7rows : List PRow :=
  [mkRow "Monday" "1" "A" "m", mkRow "Monday" "1" "A" "m",
   mkRow "Tuesday" "0" "A" "m", mkRow "Tuesday" "0" "A" "m"]

/-- Witness data for the amended C7: ordinary slash dates, a tie between two
dates with two messages each. -/
def c7wit : List PRow :=
  [mkRow "Monday" "01/01/2024" "A" "m", mkRow "Monday" "01/01/2024" "A" "m",
   mkRow "Tuesday" "02/01/2024" "A" "m", mkRow "Tuesday" "02/01/2024" "A" "m"]

/-- Witness data for C3: three messages on Monday `01/01/2024` and five on
Monday `08/01/2024` (two distinct Mondays with 3 and 5 messages). -/
def c3data : List PRow :=
  [mkRow "Monday" "01/01/2024" "A" "one",
   mkRow "Monday" "01/01/2024" "B" "two",
   mkRow "Monday" "01/01/2024" "A" "three",
   mkRow "Monday" "08/01/2024" "B" "four",
   mkRow "Monday" "08/01/2024" "A" "five",
   mkRow "Monday" "08/01/2024" "B" "six",
   mkRow "Monday" "08/01/2024" "A" "seven",
   mkRow "Monday" "08/01/2024" "B" "eight"]

/-! ## Theorems -/

/-! ### Generic facts about the stable insertion sort -/

theorem mem_insertBy {le : α → α → Bool} {x a : α} {l : List α} :
    a ∈ insertBy le x l ↔ a = x ∨ a ∈ l := by
  induction l with
  | nil => simp [insertBy]
  | cons y ys ih =>
    by_cases h : le x y = true
    · simp [insertBy, h]
    · simp only [insertBy, if_neg h, List.mem_cons, ih]
      tauto

theorem mem_sortBy {le : α → α → Bool} {a : α} {l : List α} :
    a ∈ sortBy le l ↔ a ∈ l := by
  induction l with
  | nil => simp [sortBy]
  | cons x xs ih =>
    show a ∈ insertBy le x (sortBy le xs) ↔ _
    rw [mem_insertBy, ih]
    simp

theorem pairwise_insertBy {le : α → α → Bool} {x : α} {l : List α}
    (htot : ∀ a b, le a b = true ∨ le b a = true)
    (htrans : ∀ a ∈ x :: l, ∀ b ∈ x :: l, ∀ c ∈ x :: l,
      le a b = true → le b c = true → le a c = true)
    (hl : l.Pairwise (fun a b => le a b = true)) :
    (insertBy le x l).Pairwise (fun a b => le a b = true) := by
  induction l with
  | nil => simp [insertBy]
  | cons y ys ih =>
    rw [List.pairwise_cons] at hl
    by_cases h : le x y = true
    · rw [show insertBy le x (y :: ys) = x :: y :: ys by simp [insertBy, h]]
      rw [List.pairwise_cons]
      refine ⟨?_, List.pairwise_cons.mpr hl⟩
      intro a ha
      rcases List.mem_cons.mp ha with rfl | ha
      · exact h
      · exact htrans x (by simp) y (by simp) a (by simp [ha]) h (hl.1 a ha)
    · rw [show insertBy le x (y :: ys) = y :: insertBy le x ys by
        simp [insertBy, h]]
      rw [List.pairwise_cons]
      constructor
      · intro a ha
        rcases mem_insertBy.mp ha with rfl | ha
        · rcases htot a y with hy | hy
          · exact absurd hy h
          · exact hy
        · exact hl.1 a ha
      · exact ih (fun a ha b hb c hc => htrans a (by
            rcases List.mem_cons.mp ha with rfl | ha
            · simp
            · simp [ha]) b (by
            rcases List.mem_cons.mp hb with rfl | hb
            · simp
            · simp [hb]) c (by
            rcases List.mem_cons.mp hc with rfl | hc
            · simp
            · simp [hc])) hl.2

theorem pairwise_sortBy {le : α → α → Bool} {l : List α}
    (htot : ∀ a b, le a b = true ∨ le b a = true)
    (htrans : ∀ a ∈ l, ∀ b ∈ l, ∀ c ∈ l,
      le a b = true → le b c = true → le a c = true) :
    (sortBy le l).Pairwise (fun a b => le a b = true) := by
  induction l with
  | nil => simp [sortBy]
  | cons x xs ih =>
    show (insertBy le x (sortBy le xs)).Pairwise _
    have hsub : ∀ a ∈ x :: sortBy le xs, a ∈ x :: xs := by
      intro a ha
      rcases List.mem_cons.mp ha with rfl | ha
      · simp
      · simp [mem_sortBy.mp ha]
    exact pairwise_insertBy htot
      (fun a ha b hb c hc => htrans a (hsub a ha) b (hsub b hb) c (hsub c hc))
      (ih (fun a ha b hb c hc =>
        htrans a (by simp [ha]) b (by simp [hb]) c (by simp [hc])))

theorem sortBy_eq_of_pairwise {le : α → α → Bool} {l : List α}
    (h : l.Pairwise (fun a b => le a b = true)) : sortBy le l = l := by
  induction l with
  | nil => rfl
  | cons x xs ih =>
    rw [List.pairwise_cons] at h
    show insertBy le x (sortBy le xs) = x :: xs
    rw [ih h.2]
    cases xs with
    | nil => rfl
    | cons y ys => simp [insertBy, h.1 y (by simp)]

theorem filter_insertBy_pos {le : α → α → Bool} {p : α → Bool} {x : α}
    {l : List α} (hx : p x = true)
    (hpass : ∀ y ∈ l, le x y = false → p y = false) :
    (insertBy le x l).filter p = x :: l.filter p := by
  induction l with
  | nil => simp [insertBy, hx]
  | cons y ys ih =>
    by_cases h : le x y = true
    · simp [insertBy, h, hx]
    · have hy : p y = false := hpass y (by simp) (by simpa using h)
      rw [show insertBy le x (y :: ys) = y :: insertBy le x ys by
        simp [insertBy, h]]
      rw [List.filter_cons_of_neg (by simp [hy]),
        List.filter_cons_of_neg (by simp [hy])]
      exact ih (fun z hz => hpass z (by simp [hz]))

theorem filter_insertBy_neg {le : α → α → Bool} {p : α → Bool} {x : α}
    {l : List α} (hx : p x = false) :
    (insertBy le x l).filter p = l.filter p := by
  induction l with
  | nil => simp [insertBy, hx]
  | cons y ys ih =>
    by_cases h : le x y = true
    · simp [insertBy, h, hx]
    · rw [show insertBy le x (y :: ys) = y :: insertBy le x ys by
        simp [insertBy, h]]
      cases hy : p y with
      | true =>
        rw [List.filter_cons_of_pos hy, List.filter_cons_of_pos hy, ih]
      | false =>
        rw [List.filter_cons_of_neg (by simp [hy]),
          List.filter_cons_of_neg (by simp [hy]), ih]

/-- A stable sort leaves every "tie class" (here: a `p`-fiber through which
no element can be sorted past) in its original relative order. -/
theorem filter_sortBy {le : α → α → Bool} {p : α → Bool} {l : List α}
    (hpass : ∀ x ∈ l, p x = true → ∀ y, le x y = false → p y = false) :
    (sortBy le l).filter p = l.filter p := by
  induction l with
  | nil => rfl
  | cons x xs ih =>
    show (insertBy le x (sortBy le xs)).filter p = _
    have ih' := ih (fun z hz hpz y => hpass z (by simp [hz]) hpz y)
    cases hx : p x with
    | true =>
      rw [filter_insertBy_pos hx
          (fun y _ hy => hpass x (by simp) hx y hy),
        ih', List.filter_cons_of_pos hx]
    | false =>
      rw [filter_insertBy_neg hx, ih', List.filter_cons_of_neg (by simp [hx])]

/-- `dtLe` is total: any two (possibly invalid) timestamps compare one way
or the other. -/
theorem dtLe_total (a b : Option Int) : dtLe a b = true ∨ dtLe b a = true := by
  cases a <;> cases b <;> simp [dtLe]
  omega


/-- **C1.** For every CSV input whose header row is missing one or more of the
seven required columns, ingestion fails with an error naming exactly the
missing columns (a column is in the error list iff it is required and absent
from the headers), and no message records are produced. -/
theorem ingest_rejects_missing_columns (nowMs : Int) (headers : List String)
    (rows : List Row) (h : ∃ c ∈ requiredColumns, c ∉ headers) :
    ingest nowMs headers rows = .error (missingColumns headers) ∧
    (∀ c, c ∈ missingColumns headers ↔ c ∈ requiredColumns ∧ c ∉ headers) ∧
    ∀ out, ingest nowMs headers rows ≠ .ok out := by
  have hmem : ∀ c, c ∈ missingColumns headers ↔ c ∈ requiredColumns ∧ c ∉ headers := by
    intro c
    simp [missingColumns, List.mem_filter]
  have hne : missingColumns headers ≠ [] := by
    obtain ⟨c, hc, hc2⟩ := h
    intro hnil
    have hcm := (hmem c).mpr ⟨hc, hc2⟩
    rw [hnil] at hcm
    exact absurd hcm (List.not_mem_nil c)
  refine ⟨?_, hmem, ?_⟩ <;> simp [ingest, hne]

/-- Witness for C1 at a concrete input: headers `["date", "time"]` miss five
required columns, and ingestion errors out. -/
theorem ingest_rejects_missing_columns_witness :
    ingest 0 ["date", "time"] [] = .error (missingColumns ["date", "time"]) ∧
    (∀ c, c ∈ missingColumns ["date", "time"] ↔
      c ∈ requiredColumns ∧ c ∉ ["date", "time"]) ∧
    ∀ out, ingest 0 ["date", "time"] [] ≠ .ok out :=
  ingest_rejects_missing_columns 0 ["date", "time"] []
    ⟨"datetime", by decide, by decide⟩

/-- **C4 counterexample.** For the date string `"13/01/99"` the split yields
exactly three components and the year component `"99"` parses to `99 < 100`,
yet the year is left at `99`: the `+ 2000` promotion is skipped because the
first component exceeds 12, refuting "regardless of whether the first
component exceeds 12". -/
theorem parseDate_promotion_cex :
    dateParts "13/01/99" = some ["13", "01", "99"] ∧
    parseIntJS "99" = some 99 ∧ (99 : Int) < 100 ∧
    (parseDate "13/01/99" "").yearOf = some (some 99) ∧
    (parseDate "13/01/99" "").yearOf ≠ some (some (99 + 2000)) ∧
    parseIntNoRadix "0x63" = some 99 ∧
    (parseDate "0x63/01/99" "").yearOf = some (some 99) := by decide

/-- **C4 (amended).** Two-digit-year promotion happens exactly in the `else`
branch: for every date string whose detected split yields exactly three
components, whose first component does not parse — by the radix-free
`parseInt` of the branch condition, which honors a `0x` hex prefix — to a
number greater than 12, and whose third component parses (radix 10) to
`y < 100`, the derived year is `y + 2000`. (When the first component parses
above 12, the year is used as-is.) -/
theorem parseDate_promotes_two_digit_year (dateStr timeStr : String)
    (parts : List String) (hp : dateParts dateStr = some parts)
    (h3 : parts.length = 3)
    (y : Int) (hy : parseIntJS (parts.getD 2 "") = some y) (hy100 : y < 100)
    (hfirst : optGt (parseIntNoRadix (parts.getD 0 "")) 12 = false) :
    (parseDate dateStr timeStr).yearOf = some (some (y + 2000)) := by
  have hne : dateStr ≠ "" := by
    intro h
    subst h
    simp [dateParts, jsSplit] at hp
  obtain ⟨a, b, c, rfl⟩ : ∃ a b c, parts = [a, b, c] := by
    match parts, h3 with
    | [a, b, c], _ => exact ⟨a, b, c, rfl⟩
  rw [show List.getD [a, b, c] 2 "" = c from rfl] at hy
  rw [show List.getD [a, b, c] 0 "" = a from rfl] at hfirst
  simp [parseDate, if_neg hne, hp, hfirst, hy, optLt, hy100, JSDate.yearOf]

/-- Witness for the amended C4: `"01/02/99"` has first component `1 ≤ 12` and
year `99`, promoted to `2099`. -/
theorem parseDate_promotes_two_digit_year_witness :
    (parseDate "01/02/99" "10:30").yearOf = some (some (99 + 2000)) :=
  parseDate_promotes_two_digit_year "01/02/99" "10:30" ["01", "02", "99"]
    (by decide) (by decide) 99 (by decide) (by decide) (by decide)

/-- **C5 counterexample.** The empty date string contains neither separator,
yet the derived timestamp is not "now": `parseDate` returns `null` for it,
and `new Date(null)` is the epoch, so with current time `1700000000000` the
derived timestamp is `0`. -/
theorem parseDate_empty_string_cex :
    "".data.contains '/' = false ∧ "".data.contains '-' = false ∧
    parseDate "" "10:00" = .nullDate ∧
    jsDateValue 1700000000000 (parseDate "" "10:00") = some 0 ∧
    jsDateValue 1700000000000 (parseDate "" "10:00") ≠ some 1700000000000 := by
  decide

/-- **C5 (amended).** For every record whose date string is nonempty and
contains neither `/` nor `-`, or whose split on the detected separator does
not yield exactly three components, the derived timestamp falls back to the
current time; the empty date string instead yields the `null` date, whose
derived timestamp is the epoch. -/
theorem parseDate_fallback_now (dateStr timeStr : String) (nowMs : Int)
    (hne : dateStr ≠ "")
    (h : dateParts dateStr = none ∨
      ∃ parts, dateParts dateStr = some parts ∧ parts.length ≠ 3) :
    parseDate dateStr timeStr = .nowDate ∧
    jsDateValue nowMs (parseDate dateStr timeStr) = some nowMs := by
  have hnow : parseDate dateStr timeStr = .nowDate := by
    rcases h with h | ⟨parts, hp, h3⟩
    · simp [parseDate, if_neg hne, h]
    · simp [parseDate, if_neg hne, hp, h3]
  exact ⟨hnow, by rw [hnow]; rfl⟩

/-- Witness for the amended C5: `"20240101"` has no separator, so the
timestamp is the supplied current time. -/
theorem parseDate_fallback_now_witness :
    parseDate "20240101" "10:00" = .nowDate ∧
    jsDateValue 555 (parseDate "20240101" "10:00") = some 555 :=
  parseDate_fallback_now "20240101" "10:00" 555 (by decide) (Or.inl (by decide))

/-- **C2.** For every ingested input whose derived timestamps are all valid
(no `NaN`, where the JS comparator would be inconsistent and the sort order
implementation-defined), the output is sorted ascending by the derived
timestamp; for each timestamp value, the records carrying it appear in their
original input order (stability); and if the mapped input is already sorted
by derived timestamp, the output equals it, so ingestion preserves the order
of an already-sorted input. -/
theorem ingest_sorted_stable (nowMs : Int) (rows : List Row)
    (hvalid : ∀ r ∈ rows, jsDateValue nowMs (parseDate r.date r.time) ≠ none) :
    (sortByDatetime (rows.map (addDatetime nowMs))).Pairwise
      (fun a b => dtLe a.datetime b.datetime = true) ∧
    (∀ t : Int,
      (sortByDatetime (rows.map (addDatetime nowMs))).filter
          (fun r => r.datetime == some t) =
        (rows.map (addDatetime nowMs)).filter (fun r => r.datetime == some t)) ∧
    ((rows.map (addDatetime nowMs)).Pairwise
        (fun a b => dtLe a.datetime b.datetime = true) →
      sortByDatetime (rows.map (addDatetime nowMs)) = rows.map (addDatetime nowMs)) := by
  have hsome : ∀ a ∈ rows.map (addDatetime nowMs), ∃ v, a.datetime = some v := by
    intro a ha
    obtain ⟨r, hr, rfl⟩ := List.mem_map.mp ha
    rcases h : jsDateValue nowMs (parseDate r.date r.time) with _ | v
    · exact absurd h (hvalid r hr)
    · exact ⟨v, h⟩
  refine ⟨?_, ?_, fun h => sortBy_eq_of_pairwise h⟩
  · apply pairwise_sortBy (fun a b => dtLe_total _ _)
    intro a ha b hb c hc hab hbc
    obtain ⟨va, hva⟩ := hsome a ha
    obtain ⟨vb, hvb⟩ := hsome b hb
    obtain ⟨vc, hvc⟩ := hsome c hc
    rw [hva, hvb] at hab
    rw [hvb, hvc] at hbc
    rw [hva, hvc]
    simp only [dtLe, decide_eq_true_eq] at hab hbc ⊢
    omega
  · intro t
    apply filter_sortBy
    intro x _ hpx y hxy
    have hxt : x.datetime = some t := by simpa using hpx
    rw [hxt] at hxy
    rcases hy : y.datetime with _ | vy
    · rw [hy] at hxy
      simp [dtLe] at hxy
    · rw [hy] at hxy
      simp only [dtLe, decide_eq_false_iff_not] at hxy
      simp only [beq_eq_false_iff_ne, ne_eq, Option.some.injEq]
      omega

/-- Witness for C2 at `c2rows` (all timestamps valid). -/
theorem ingest_sorted_stable_witness :
    (sortByDatetime (c2rows.map (addDatetime 0))).Pairwise
      (fun a b => dtLe a.datetime b.datetime = true) ∧
    (∀ t : Int,
      (sortByDatetime (c2rows.map (addDatetime 0))).filter
          (fun r => r.datetime == some t) =
        (c2rows.map (addDatetime 0)).filter (fun r => r.datetime == some t)) ∧
    ((c2rows.map (addDatetime 0)).Pairwise
        (fun a b => dtLe a.datetime b.datetime = true) →
      sortByDatetime (c2rows.map (addDatetime 0)) = c2rows.map (addDatetime 0)) :=
  ingest_sorted_stable 0 c2rows (by decide)

/-! ### The weekday pass: closed forms -/

theorem map_bumpCount (w : String) (g : String → Nat) (l : List String) :
    (l.map (fun d => (d, g d))).map
        (fun e => if e.1 == w then (e.1, e.2 + 1) else e) =
      l.map (fun d => (d, if d == w then g d + 1 else g d)) := by
  induction l with
  | nil => rfl
  | cons a l ih =>
    simp only [List.map_cons, ih, List.cons.injEq, and_true]
    by_cases h : (a == w) = true
    · simp [h]
    · simp [h]

theorem map_bumpDates (w dt : String) (g : String → List String)
    (l : List String) :
    (l.map (fun d => (d, g d))).map
        (fun e => if e.1 == w then
          (e.1, if e.2.contains dt then e.2 else e.2 ++ [dt]) else e) =
      l.map (fun d => (d, if d == w then
        (if (g d).contains dt then g d else g d ++ [dt]) else g d)) := by
  induction l with
  | nil => rfl
  | cons a l ih =>
    simp only [List.map_cons, ih, List.cons.injEq, and_true]
    by_cases h : (a == w) = true
    · simp [h]
    · simp [h]

theorem any_key_map_iff {β : Type} (w : String) (g : String → β)
    (l : List String) :
    ((l.map (fun d => (d, g d))).any (fun e => e.1 == w)) = true ↔ w ∈ l := by
  rw [List.any_eq_true]
  constructor
  · rintro ⟨e, he, hw⟩
    obtain ⟨d, hd, rfl⟩ := List.mem_map.mp he
    have : d = w := by simpa using hw
    exact this ▸ hd
  · intro hw
    exact ⟨(w, g w), List.mem_map.mpr ⟨w, hw, rfl⟩, by simp⟩

theorem foldl_countStep_formula (data : List PRow) (g : String → Nat) :
    data.foldl countStep (weekdayNames.map (fun d => (d, g d))) =
      weekdayNames.map (fun d =>
        (d, g d + (data.filter (fun r => r.weekday == d)).length)) := by
  induction data generalizing g with
  | nil => simp
  | cons r rest ih =>
    rw [List.foldl_cons]
    by_cases hw : r.weekday ∈ weekdayNames
    · rw [show countStep (weekdayNames.map (fun d => (d, g d))) r =
          weekdayNames.map (fun d =>
            (d, if d == r.weekday then g d + 1 else g d)) by
        rw [countStep, if_pos ((any_key_map_iff _ _ _).mpr hw), map_bumpCount]]
      rw [ih (fun d => if d == r.weekday then g d + 1 else g d)]
      apply List.map_congr_left
      intro d _
      by_cases hdw : d = r.weekday
      · subst hdw
        rw [List.filter_cons_of_pos (by simp), List.length_cons,
          if_pos (show (r.weekday == r.weekday) = true by simp)]
        exact congrArg (Prod.mk r.weekday) (by omega)
      · rw [List.filter_cons_of_neg (by simp [Ne.symm hdw])]
        simp [hdw]
    · rw [show countStep (weekdayNames.map (fun d => (d, g d))) r =
          weekdayNames.map (fun d => (d, g d)) by
        rw [countStep,
          if_neg (by rw [any_key_map_iff]; exact hw)]]
      rw [ih g]
      apply List.map_congr_left
      intro d hd
      have hne : r.weekday ≠ d := fun h => hw (h ▸ hd)
      rw [List.filter_cons_of_neg (by simp [hne])]

theorem foldl_dateStep_formula (data : List PRow) (g : String → List String) :
    data.foldl dateStep (weekdayNames.map (fun d => (d, g d))) =
      weekdayNames.map (fun d =>
        (d, addDates (g d)
          ((data.filter (fun r => r.weekday == d)).map (fun r => r.date)))) := by
  induction data generalizing g with
  | nil => simp [addDates]
  | cons r rest ih =>
    rw [List.foldl_cons]
    by_cases hw : r.weekday ∈ weekdayNames
    · rw [show dateStep (weekdayNames.map (fun d => (d, g d))) r =
          weekdayNames.map (fun d => (d, if d == r.weekday then
            (if (g d).contains r.date then g d else g d ++ [r.date])
          else g d)) by
        rw [dateStep, if_pos ((any_key_map_iff _ _ _).mpr hw), map_bumpDates]]
      rw [ih (fun d => if d == r.weekday then
        (if (g d).contains r.date then g d else g d ++ [r.date]) else g d)]
      apply List.map_congr_left
      intro d _
      by_cases hdw : d = r.weekday
      · subst hdw
        rw [List.filter_cons_of_pos (by simp)]
        simp [addDates]
      · rw [List.filter_cons_of_neg (by simp [Ne.symm hdw])]
        simp [hdw]
    · rw [show dateStep (weekdayNames.map (fun d => (d, g d))) r =
          weekdayNames.map (fun d => (d, g d)) by
        rw [dateStep, if_neg (by rw [any_key_map_iff]; exact hw)]]
      rw [ih g]
      apply List.map_congr_left
      intro d hd
      have hne : r.weekday ≠ d := fun h => hw (h ▸ hd)
      rw [List.filter_cons_of_neg (by simp [hne])]

theorem lookup_val_map {β : Type} (l : List String) (f : String → β)
    (dflt : β) (d : String) (hd : d ∈ l) :
    ((((l.map (fun x => (x, f x))).find? (fun e => e.1 == d)).map
      (fun e => e.2)).getD dflt) = f d := by
  induction l with
  | nil => cases hd
  | cons a l ih =>
    by_cases h : a = d
    · subst h
      rw [List.map_cons, List.find?_cons_of_pos _ (by simp)]
      rfl
    · rw [List.map_cons, List.find?_cons_of_neg _ (by simp [h])]
      exact ih (by
        rcases List.mem_cons.mp hd with h' | h'
        · exact absurd h'.symm h
        · exact h')

theorem lookupCount_messagesByWeekday (data : List PRow) (d : String)
    (hd : d ∈ weekdayNames) :
    lookupCount (messagesByWeekday data) d =
      (data.filter (fun r => r.weekday == d)).length := by
  rw [messagesByWeekday,
    show (weekdayNames.map (fun d => (d, 0)) : List (String × Nat)) =
      weekdayNames.map (fun d => (d, (fun _ => 0 : String → Nat) d)) from rfl,
    foldl_countStep_formula, lookupCount, lookup_val_map _ _ _ _ hd]
  exact Nat.zero_add _

theorem lookupDates_daysByWeekday (data : List PRow) (d : String)
    (hd : d ∈ weekdayNames) :
    lookupDates (daysByWeekday data) d =
      addDates [] ((data.filter (fun r => r.weekday == d)).map
        (fun r => r.date)) := by
  rw [daysByWeekday,
    show (weekdayNames.map (fun d => (d, ([] : List String)))) =
      weekdayNames.map (fun d =>
        (d, (fun _ => [] : String → List String) d)) from rfl,
    foldl_dateStep_formula, lookupDates, lookup_val_map _ _ _ _ hd]

/-! ### `addDates` builds a duplicate-free list with first-occurrence order -/

theorem mem_addDates {x : String} {acc l : List String} :
    x ∈ addDates acc l ↔ x ∈ acc ∨ x ∈ l := by
  induction l generalizing acc with
  | nil => simp [addDates]
  | cons a l ih =>
    rw [addDates, ih]
    by_cases h : acc.contains a = true
    · have : a ∈ acc := by simpa using h
      simp only [if_pos h, List.mem_cons]
      constructor
      · rintro (hx | hx)
        · exact Or.inl hx
        · exact Or.inr (Or.inr hx)
      · rintro (hx | rfl | hx)
        · exact Or.inl hx
        · exact Or.inl this
        · exact Or.inr hx
    · simp only [if_neg h, List.mem_append, List.mem_singleton, List.mem_cons]
      tauto

theorem nodup_addDates {acc l : List String} (hacc : acc.Nodup) :
    (addDates acc l).Nodup := by
  induction l generalizing acc with
  | nil => exact hacc
  | cons a l ih =>
    rw [addDates]
    by_cases h : acc.contains a = true
    · rw [if_pos h]
      exact ih hacc
    · rw [if_neg h]
      refine ih ?_
      rw [List.nodup_append]
      refine ⟨hacc, List.nodup_singleton a, ?_⟩
      intro x hx hx1
      rw [List.mem_singleton] at hx1
      subst hx1
      exact h (by simpa using hx)

theorem length_addDates_nil (l : List String) :
    (addDates [] l).length = l.toFinset.card := by
  have h1 : (addDates [] l).Nodup := nodup_addDates List.nodup_nil
  have h2 : (addDates [] l).toFinset = l.toFinset := by
    apply Finset.ext
    intro x
    simp [List.mem_toFinset, mem_addDates]
  rw [← List.toFinset_card_of_nodup h1, h2]

/-- **C3.** For every non-empty message sequence and each of the seven fixed
weekday names `d`, the weekday-averages entry for `d` is the number `N` of
messages whose `weekday` field is `d` divided by the number `D` of distinct
verbatim date strings on which `d` occurs, and it is `0` when `d` never
occurs (`D = 0`, no division by zero); the averages map has exactly the
seven fixed keys. -/
theorem weekday_average_correct (data : List PRow) (_hne : data ≠ [])
    (d : String) (hd : d ∈ weekdayNames) (N D : Nat)
    (hN : N = (data.filter (fun r => r.weekday == d)).length)
    (hD : D = ((data.filter (fun r => r.weekday == d)).map
      (fun r => r.date)).toFinset.card) :
    (d, if D = 0 then (0 : ℚ) else (N : ℚ) / (D : ℚ))
      ∈ avgMessagesByWeekday data ∧
    (avgMessagesByWeekday data).map Prod.fst = weekdayNames := by
  subst hN hD
  constructor
  · rw [avgMessagesByWeekday]
    apply List.mem_map.mpr
    refine ⟨d, hd, ?_⟩
    simp only [lookupCount_messagesByWeekday data d hd,
      lookupDates_daysByWeekday data d hd, length_addDates_nil]
    by_cases h0 : ((data.filter (fun r => r.weekday == d)).map
        (fun r => r.date)).toFinset.card = 0
    · simp [h0]
    · simp [h0, Nat.pos_of_ne_zero h0]
  · rw [avgMessagesByWeekday, List.map_map]
    exact (List.map_congr_left fun x _ => rfl).trans (List.map_id _)

/-- Witness for C3: on `c3data` the Monday average entry is `8 / 2` (i.e.
`4.0`), and a never-occurring weekday (Tuesday) has entry `0`. -/
theorem weekday_average_correct_witness :
    (("Monday", if (2 : Nat) = 0 then (0 : ℚ)
        else ((8 : Nat) : ℚ) / ((2 : Nat) : ℚ))
        ∈ avgMessagesByWeekday c3data ∧
      (avgMessagesByWeekday c3data).map Prod.fst = weekdayNames) ∧
    (("Tuesday", if (0 : Nat) = 0 then (0 : ℚ)
        else ((0 : Nat) : ℚ) / ((0 : Nat) : ℚ))
        ∈ avgMessagesByWeekday c3data ∧
      (avgMessagesByWeekday c3data).map Prod.fst = weekdayNames) :=
  ⟨weekday_average_correct c3data (by decide) "Monday" (by decide)
      8 2 (by decide) (by decide),
    weekday_average_correct c3data (by decide) "Tuesday" (by decide)
      0 0 (by decide) (by decide)⟩

/-- The Monday average of `c3data` evaluates to exactly `4.0`. -/
theorem weekday_average_example :
    ("Monday", (4 : ℚ)) ∈ avgMessagesByWeekday c3data := by
  rw [avgMessagesByWeekday]
  refine List.mem_map.mpr ⟨"Monday", by decide, ?_⟩
  rw [lookupCount_messagesByWeekday _ _ (by decide),
    lookupDates_daysByWeekday _ _ (by decide)]
  norm_num [show (c3data.filter (fun r => r.weekday == "Monday")).length = 8
      from by decide,
    show addDates [] ((c3data.filter (fun r => r.weekday == "Monday")).map
      (fun r => r.date)) = ["01/01/2024", "08/01/2024"] from by decide]

/-- **C10.** A record whose `weekday` field is not exactly one of the seven
English weekday names updates neither the per-weekday message totals nor the
per-weekday distinct-date sets (the `hasOwnProperty` guard skips it), so it
never affects any weekday average; and the weekday-averages map always has
exactly the seven fixed keys. -/
theorem weekday_nonname_excluded (pre post : List PRow) (r : PRow)
    (hr : r.weekday ∉ weekdayNames) :
    messagesByWeekday (pre ++ r :: post) = messagesByWeekday (pre ++ post) ∧
    daysByWeekday (pre ++ r :: post) = daysByWeekday (pre ++ post) ∧
    avgMessagesByWeekday (pre ++ r :: post) =
      avgMessagesByWeekday (pre ++ post) ∧
    ∀ data : List PRow,
      (avgMessagesByWeekday data).map Prod.fst = weekdayNames := by
  have hfil : ∀ d ∈ weekdayNames,
      (pre ++ r :: post).filter (fun x => x.weekday == d) =
        (pre ++ post).filter (fun x => x.weekday == d) := by
    intro d hd
    have hne : r.weekday ≠ d := fun h => hr (h ▸ hd)
    rw [List.filter_append, List.filter_append,
      List.filter_cons_of_neg (by simp [hne])]
  have hcount : messagesByWeekday (pre ++ r :: post) =
      messagesByWeekday (pre ++ post) := by
    rw [messagesByWeekday, messagesByWeekday,
      show (weekdayNames.map (fun d => (d, 0)) : List (String × Nat)) =
        weekdayNames.map (fun d => (d, (fun _ => 0 : String → Nat) d)) from rfl,
      foldl_countStep_formula, foldl_countStep_formula]
    exact List.map_congr_left (fun d hd => by rw [hfil d hd])
  have hdates : daysByWeekday (pre ++ r :: post) =
      daysByWeekday (pre ++ post) := by
    rw [daysByWeekday, daysByWeekday,
      show (weekdayNames.map (fun d => (d, ([] : List String)))) =
        weekdayNames.map (fun d =>
          (d, (fun _ => [] : String → List String) d)) from rfl,
      foldl_dateStep_formula, foldl_dateStep_formula]
    exact List.map_congr_left (fun d hd => by rw [hfil d hd])
  refine ⟨hcount, hdates, ?_, ?_⟩
  · rw [avgMessagesByWeekday, avgMessagesByWeekday, hcount, hdates]
  · intro data
    rw [avgMessagesByWeekday, List.map_map]
    exact (List.map_congr_left fun x _ => rfl).trans (List.map_id _)

/-- Witness for C10: a record with weekday `"Funday"` changes no weekday
aggregate when inserted into a one-record dataset. -/
theorem weekday_nonname_excluded_witness :
    messagesByWeekday ([mkRow "Monday" "01/01/2024" "A" "m"] ++
        mkRow "Funday" "02/01/2024" "B" "x" :: []) =
      messagesByWeekday ([mkRow "Monday" "01/01/2024" "A" "m"] ++ []) ∧
    daysByWeekday ([mkRow "Monday" "01/01/2024" "A" "m"] ++
        mkRow "Funday" "02/01/2024" "B" "x" :: []) =
      daysByWeekday ([mkRow "Monday" "01/01/2024" "A" "m"] ++ []) ∧
    avgMessagesByWeekday ([mkRow "Monday" "01/01/2024" "A" "m"] ++
        mkRow "Funday" "02/01/2024" "B" "x" :: []) =
      avgMessagesByWeekday ([mkRow "Monday" "01/01/2024" "A" "m"] ++ []) ∧
    ∀ data : List PRow,
      (avgMessagesByWeekday data).map Prod.fst = weekdayNames :=
  weekday_nonname_excluded [mkRow "Monday" "01/01/2024" "A" "m"] []
    (mkRow "Funday" "02/01/2024" "B" "x") (by decide)

/-! ### The search filter -/

theorem occursWithin_nil (h : List Char) : occursWithin [] h = true := by
  cases h <;> rfl

theorem string_data_nil {s : String} : s.data = [] ↔ s = "" := by
  cases s with
  | mk d =>
    constructor
    · intro h
      subst h
      rfl
    · intro h
      exact congrArg String.data h

theorem jsToLower_eq_empty {s : String} : jsToLower s = "" ↔ s = "" := by
  constructor
  · intro h
    have hd : s.data.map Char.toLower = [] := congrArg String.data h
    exact string_data_nil.mp (by simpa using hd)
  · intro h
    subst h
    rfl

/-- **C8.** The query filter returns exactly the subsequence of records whose
`message` field case-insensitively contains the search string as a substring
(in particular the output is a sublist of the input, preserving order), and
the empty search string returns the full sequence unchanged. -/
theorem query_filter_correct (searchTerm : String) (chatData : List PRow) :
    filteredChatData searchTerm chatData =
      chatData.filter (fun msg =>
        jsIncludes (jsToLower msg.message) (jsToLower searchTerm)) ∧
    (filteredChatData searchTerm chatData).Sublist chatData ∧
    (searchTerm = "" → filteredChatData searchTerm chatData = chatData) := by
  have main : filteredChatData searchTerm chatData =
      chatData.filter (fun msg =>
        jsIncludes (jsToLower msg.message) (jsToLower searchTerm)) := by
    by_cases hs : searchTerm = ""
    · subst hs
      rw [filteredChatData, if_neg (by simp)]
      refine (List.filter_eq_self.mpr ?_).symm
      intro a _
      exact occursWithin_nil _
    · rcases chatData with _ | ⟨m0, rest⟩
      · rw [filteredChatData, if_neg (by simp)]
        rfl
      · rw [filteredChatData, if_pos ⟨hs, by simp⟩]
        apply List.filter_congr
        intro m _
        by_cases hm : m.message = ""
        · have hne : (jsToLower searchTerm).data ≠ [] :=
            fun h => hs (jsToLower_eq_empty.mp (string_data_nil.mp h))
          have hrhs : jsIncludes (jsToLower m.message) (jsToLower searchTerm)
              = false := by
            rw [hm]
            show occursWithin (jsToLower searchTerm).data [] = false
            rcases hn : (jsToLower searchTerm).data with _ | ⟨c, t⟩
            · exact absurd hn hne
            · rfl
          rw [hrhs, hm]
          rfl
        · have hbeq : (m.message == "") = false := beq_eq_false_iff_ne.mpr hm
          simp [hbeq]
  refine ⟨main, ?_, ?_⟩
  · rw [main]
    exact List.filter_sublist _
  · intro h
    subst h
    rw [filteredChatData, if_neg (by simp)]

/-- Witness for C8 at concrete inputs: searching `"HELLO"` keeps exactly the
record whose message contains `"hello"`, case-insensitively and in order. -/
theorem query_filter_correct_witness :
    filteredChatData "HELLO" c8rows =
      c8rows.filter (fun msg =>
        jsIncludes (jsToLower msg.message) (jsToLower "HELLO")) ∧
    (filteredChatData "HELLO" c8rows).Sublist c8rows ∧
    ("HELLO" = "" → filteredChatData "HELLO" c8rows = c8rows) :=
  query_filter_correct "HELLO" c8rows

/-! ### The per-sender summary -/

theorem mem_firstDedup {x : String} {l : List String} :
    x ∈ firstDedup l ↔ x ∈ l := by
  induction l with
  | nil => simp [firstDedup]
  | cons k ks ih =>
    rw [firstDedup]
    by_cases hxk : x = k
    · subst hxk
      simp
    · simp only [List.mem_cons]
      constructor
      · rintro (h | h)
        · exact Or.inl h
        · exact Or.inr (ih.mp (List.mem_filter.mp h).1)
      · rintro (h | h)
        · exact Or.inl h
        · exact Or.inr (List.mem_filter.mpr ⟨ih.mpr h, by simp [hxk]⟩)

theorem scan_firstMax (l : List (String × Nat)) (mx : String × Nat) :
    (l.foldl (fun a e => if a.2 < e.2 then e else a) mx = mx ∧
      ∀ f ∈ l, f.2 ≤ mx.2) ∨
    (mx.2 < (l.foldl (fun a e => if a.2 < e.2 then e else a) mx).2 ∧
      (∀ f ∈ l, f.2 ≤ (l.foldl (fun a e => if a.2 < e.2 then e else a) mx).2) ∧
      ∃ l₁ l₂, l = l₁ ++ (l.foldl (fun a e => if a.2 < e.2 then e else a) mx) :: l₂ ∧
        ∀ f ∈ l₁, f.2 < (l.foldl (fun a e => if a.2 < e.2 then e else a) mx).2) := by
  induction l generalizing mx with
  | nil =>
    left
    exact ⟨rfl, by simp⟩
  | cons e l ih =>
    rw [List.foldl_cons]
    by_cases h : mx.2 < e.2
    · rw [if_pos h]
      rcases ih e with ⟨heq, hle⟩ | ⟨hlt, hle, l₁, l₂, hdec, hpre⟩
      · right
        rw [heq]
        refine ⟨h, ?_, [], l, rfl, by simp⟩
        intro f hf
        rcases List.mem_cons.mp hf with rfl | hf
        · exact le_refl _
        · exact hle f hf
      · right
        refine ⟨lt_trans h hlt, ?_, e :: l₁, l₂, by rw [List.cons_append, ← hdec], ?_⟩
        · intro f hf
          rcases List.mem_cons.mp hf with rfl | hf
          · exact le_of_lt hlt
          · exact hle f hf
        · intro f hf
          rcases List.mem_cons.mp hf with rfl | hf
          · exact hlt
          · exact hpre f hf
    · rw [if_neg h]
      have hle' : e.2 ≤ mx.2 := Nat.le_of_not_lt h
      rcases ih mx with ⟨heq, hfle⟩ | ⟨hlt, hfle, l₁, l₂, hdec, hpre⟩
      · left
        refine ⟨heq, ?_⟩
        intro f hf
        rcases List.mem_cons.mp hf with rfl | hf
        · exact hle'
        · exact hfle f hf
      · right
        refine ⟨hlt, ?_, e :: l₁, l₂, by rw [List.cons_append, ← hdec], ?_⟩
        · intro f hf
          rcases List.mem_cons.mp hf with rfl | hf
          · exact le_of_lt (lt_of_le_of_lt hle' hlt)
          · exact hfle f hf
        · intro f hf
          rcases List.mem_cons.mp hf with rfl | hf
          · exact lt_of_le_of_lt hle' hlt
          · exact hpre f hf

theorem pos_bumpKey {m : List (String × Nat)} {k : String}
    (h : ∀ e ∈ m, 1 ≤ e.2) : ∀ e ∈ bumpKey m k, 1 ≤ e.2 := by
  intro e he
  rw [bumpKey] at he
  by_cases hg : m.any (fun e => e.1 == k) = true
  · rw [if_pos hg] at he
    obtain ⟨f, hf, rfl⟩ := List.mem_map.mp he
    by_cases hfk : (f.1 == k) = true
    · rw [if_pos hfk]
      exact Nat.le_add_left 1 f.2
    · rw [if_neg hfk]
      exact h f hf
  · rw [if_neg hg] at he
    rcases List.mem_append.mp he with hf | hf
    · exact h e hf
    · rw [List.mem_singleton] at hf
      subst hf
      exact le_refl 1

theorem pos_foldl_bumpKey (l : List PRow) :
    ∀ m : List (String × Nat), (∀ e ∈ m, 1 ≤ e.2) →
      ∀ e ∈ l.foldl (fun m r => bumpKey m r.date) m, 1 ≤ e.2 := by
  induction l with
  | nil => exact fun m hm => hm
  | cons r rest ih =>
    intro m hm
    rw [List.foldl_cons]
    exact ih _ (pos_bumpKey hm)

theorem bumpKey_ne_nil (m : List (String × Nat)) (k : String) :
    bumpKey m k ≠ [] := by
  rw [bumpKey]
  by_cases hg : m.any (fun e => e.1 == k) = true
  · rw [if_pos hg]
    rcases m with _ | ⟨a, m'⟩
    · simp at hg
    · simp
  · rw [if_neg hg]
    simp

theorem foldl_bumpKey_ne_nil (l : List PRow) :
    ∀ m : List (String × Nat), m ≠ [] →
      l.foldl (fun m r => bumpKey m r.date) m ≠ [] := by
  induction l with
  | nil => exact fun m hm => hm
  | cons r rest ih =>
    intro m _
    rw [List.foldl_cons]
    exact ih _ (bumpKey_ne_nil m r.date)

theorem messagesByDate_ne_nil {data : List PRow} (h : data ≠ []) :
    messagesByDate data ≠ [] := by
  rcases data with _ | ⟨r, rest⟩
  · exact absurd rfl h
  · rw [messagesByDate, List.foldl_cons]
    exact foldl_bumpKey_ne_nil rest _ (bumpKey_ne_nil [] r.date)

theorem bumpKey_keys_pred {P : String → Prop} {m : List (String × Nat)}
    {k : String} (hm : ∀ e ∈ m, P e.1) (hk : P k) :
    ∀ e ∈ bumpKey m k, P e.1 := by
  intro e he
  rw [bumpKey] at he
  by_cases hg : m.any (fun e => e.1 == k) = true
  · rw [if_pos hg] at he
    obtain ⟨f, hf, rfl⟩ := List.mem_map.mp he
    by_cases hfk : (f.1 == k) = true
    · rw [if_pos hfk]
      exact hm f hf
    · rw [if_neg hfk]
      exact hm f hf
  · rw [if_neg hg] at he
    rcases List.mem_append.mp he with hf | hf
    · exact hm e hf
    · rw [List.mem_singleton] at hf
      subst hf
      exact hk

theorem foldl_bumpKey_keys_pred (P : String → Prop) (l : List PRow) :
    ∀ m : List (String × Nat), (∀ e ∈ m, P e.1) → (∀ r ∈ l, P r.date) →
      ∀ e ∈ l.foldl (fun m r => bumpKey m r.date) m, P e.1 := by
  induction l with
  | nil => exact fun m hm _ => hm
  | cons r rest ih =>
    intro m hm hl
    rw [List.foldl_cons]
    exact ih _ (bumpKey_keys_pred hm (hl r (by simp)))
      (fun x hx => hl x (by simp [hx]))

theorem jsObjEntries_of_no_index {m : List (String × Nat)}
    (h : ∀ e ∈ m, isArrayIndex e.1 = false) : jsObjEntries m = m := by
  rw [jsObjEntries,
    show m.filter (fun e => isArrayIndex e.1) = [] from
      List.filter_eq_nil_iff.mpr (fun e he => by simp [h e he]),
    show m.filter (fun e => !(isArrayIndex e.1)) = m from
      List.filter_eq_self.mpr (fun e he => by simp [h e he])]
  rfl

/-- **C7 (amended).** For every non-empty message sequence none of whose
verbatim date strings is a canonical array-index string or an
`Object.prototype` property name, the most-active-day result is the first
pair in per-date insertion order attaining the maximum per-date count
(linear scan with strictly-greater comparison: first-seen date wins ties).
Date strings that are canonical array-index strings are enumerated first in
ascending numeric order by `Object.entries`, which can override insertion
order (see the counterexample); date strings inherited from
`Object.prototype` defeat the create-or-increment pattern itself. -/
theorem mostActiveDay_firstMax (data : List PRow) (hne : data ≠ [])
    (hno : ∀ r ∈ data, isArrayIndex r.date = false)
    (_hnp : ∀ r ∈ data, r.date ∉ objectProtoKeys) :
    FirstMax (messagesByDate data) (mostActiveDay data) := by
  have hkeys : ∀ e ∈ messagesByDate data, isArrayIndex e.1 = false := by
    rw [messagesByDate]
    exact foldl_bumpKey_keys_pred (fun k => isArrayIndex k = false)
      data [] (by simp) hno
  have hpos : ∀ e ∈ messagesByDate data, 1 ≤ e.2 := by
    rw [messagesByDate]
    exact pos_foldl_bumpKey data [] (by simp)
  have hnil : messagesByDate data ≠ [] := messagesByDate_ne_nil hne
  rw [mostActiveDay, jsObjEntries_of_no_index hkeys]
  rcases scan_firstMax (messagesByDate data) ("", 0) with
    ⟨heq, hle⟩ | ⟨_, hle, l₁, l₂, hdec, hpre⟩
  · exfalso
    obtain ⟨f, hf⟩ := List.exists_mem_of_ne_nil _ hnil
    have h1 := hle f hf
    have h2 := hpos f hf
    omega
  · exact ⟨hle, l₁, l₂, hdec, hpre⟩

/-- Witness for the amended C7: two slash-dates tied at 2 messages each; the
first-inserted date wins. -/
theorem mostActiveDay_firstMax_witness :
    FirstMax (messagesByDate c7wit) (mostActiveDay c7wit) :=
  mostActiveDay_firstMax c7wit (by decide) (by decide) (by decide)

/-- **C7 counterexample.** With verbatim dates `"1"` (inserted first, 2
messages) and `"0"` (2 messages), `Object.entries` enumerates the
array-index keys in ascending numeric order, so the strictly-greater scan
returns `("0", 2)` — not the first pair in per-date insertion order
attaining the maximum, which is `("1", 2)`. -/
theorem mostActiveDay_cex :
    messagesByDate c7rows = [("1", 2), ("0", 2)] ∧
    mostActiveDay c7rows = ("0", 2) ∧
    mostActiveDay c7rows ≠ ("1", 2) ∧
    FirstMax (messagesByDate c7rows) ("1", 2) :=
  ⟨by decide, by decide, by decide, by decide, [], [("0", 2)], by decide,
    by decide⟩

/-! ### Phrase windows and `topPhrases` -/

theorem length_phrases2 : ∀ ws : List String,
    (phrases2 ws).length = ws.length - 1
  | [] => rfl
  | [_] => rfl
  | a :: b :: rest => by
    rw [phrases2, List.length_cons, length_phrases2 (b :: rest)]
    simp only [List.length_cons]
    omega

theorem length_phrases3 : ∀ ws : List String,
    (phrases3 ws).length = ws.length - 2
  | [] => rfl
  | [_] => rfl
  | [_, _] => rfl
  | a :: b :: c :: rest => by
    rw [phrases3, List.length_cons, length_phrases3 (b :: c :: rest)]
    simp only [List.length_cons]
    omega

theorem phrases2_space : ∀ (ws : List String) (p : String),
    p ∈ phrases2 ws → ' ' ∈ p.data
  | [], _, hp => by simp [show phrases2 [] = [] from rfl] at hp
  | [_], _, hp => by simp [show ∀ a, phrases2 [a] = [] from fun _ => rfl] at hp
  | a :: b :: rest, p, hp => by
    rw [phrases2] at hp
    rcases List.mem_cons.mp hp with rfl | hp
    · refine List.mem_append.mpr (Or.inl (List.mem_append.mpr (Or.inr ?_)))
      decide
    · exact phrases2_space (b :: rest) p hp

theorem phrases3_space : ∀ (ws : List String) (p : String),
    p ∈ phrases3 ws → ' ' ∈ p.data
  | [], _, hp => by simp [show phrases3 [] = [] from rfl] at hp
  | [_], _, hp => by simp [show ∀ a, phrases3 [a] = [] from fun _ => rfl] at hp
  | [_, _], _, hp => by
    simp [show ∀ a b, phrases3 [a, b] = [] from fun _ _ => rfl] at hp
  | a :: b :: c :: rest, p, hp => by
    rw [phrases3] at hp
    rcases List.mem_cons.mp hp with rfl | hp
    · show ' ' ∈ (a ++ " " ++ b ++ " " ++ c).data
      rw [String.data_append]
      refine List.mem_append.mpr (Or.inl ?_)
      rw [String.data_append]
      refine List.mem_append.mpr (Or.inr ?_)
      decide
    · exact phrases3_space (b :: c :: rest) p hp

theorem allPhrases_space (data : List PRow) :
    ∀ p ∈ allPhrases data, ' ' ∈ p.data := by
  induction data with
  | nil => simp [allPhrases]
  | cons r rest ih =>
    intro p hp
    have hstep : allPhrases (r :: rest) =
        if r.message = "" then allPhrases rest
        else phrases2 (phraseTokens r.message) ++
          phrases3 (phraseTokens r.message) ++ allPhrases rest := rfl
    rw [hstep] at hp
    by_cases hm : r.message = ""
    · rw [if_pos hm] at hp
      exact ih p hp
    · rw [if_neg hm] at hp
      rcases List.mem_append.mp hp with h2 | h3
      · rcases List.mem_append.mp h2 with h2a | h2b
        · exact phrases2_space _ p h2a
        · exact phrases3_space _ p h2b
      · exact ih p h3

theorem isArrayIndex_of_space {s : String} (h : ' ' ∈ s.data) :
    isArrayIndex s = false := by
  have hall : s.data.all Char.isDigit = false :=
    List.all_eq_false.mpr ⟨' ', h, by decide⟩
  simp [isArrayIndex, hall]

theorem firstDedup_append (ks : List String) (k : String) :
    firstDedup (ks ++ [k]) =
      if k ∈ ks then firstDedup ks else firstDedup ks ++ [k] := by
  induction ks with
  | nil => simp [firstDedup]
  | cons a ks ih =>
    rw [List.cons_append, firstDedup, firstDedup, ih]
    by_cases hk : k ∈ ks
    · rw [if_pos hk, if_pos (List.mem_cons.mpr (Or.inr hk))]
    · rw [if_neg hk]
      by_cases hka : k = a
      · subst hka
        rw [if_pos (List.mem_cons_self _ _), List.filter_append]
        simp
      · rw [if_neg (by simp [hka, hk]), List.filter_append]
        have : [k].filter (fun x => !(x == a)) = [k] := by simp [hka]
        rw [this, List.cons_append]

theorem foldl_bumpKey_counts (ks : List String) :
    ks.foldl bumpKey [] =
      (firstDedup ks).map
        (fun p => (p, (ks.filter (fun x => x == p)).length)) := by
  induction ks using List.reverseRecOn with
  | nil => rfl
  | append_singleton ks k ih =>
    rw [List.foldl_append, ih, List.foldl_cons, List.foldl_nil,
      bumpKey, firstDedup_append]
    by_cases hk : k ∈ ks
    · rw [if_pos ((any_key_map_iff k _ _).mpr (mem_firstDedup.mpr hk)),
        if_pos hk, map_bumpCount]
      apply List.map_congr_left
      intro p hp
      by_cases hpk : p = k
      · subst hpk
        rw [if_pos (by simp), List.filter_append, List.length_append]
        have h1 : ([p].filter (fun x => x == p)).length = 1 := by simp
        rw [h1]
      · rw [if_neg (by simp [hpk]), List.filter_append, List.length_append]
        have h0 : ([k].filter (fun x => x == p)).length = 0 := by
          simp [Ne.symm hpk]
        rw [h0, Nat.add_zero]
    · rw [if_neg (fun hany =>
          hk (mem_firstDedup.mp ((any_key_map_iff k _ _).mp hany))),
        if_neg hk, List.map_append]
      congr 1
      · apply List.map_congr_left
        intro p hp
        have hpk : p ≠ k := fun h => hk (h ▸ mem_firstDedup.mp hp)
        rw [List.filter_append, List.length_append]
        have h0 : ([k].filter (fun x => x == p)).length = 0 := by
          simp [Ne.symm hpk]
        rw [h0, Nat.add_zero]
      · have h0 : (ks.filter (fun x => x == k)).length = 0 := by
          have : ks.filter (fun x => x == k) = [] :=
            List.filter_eq_nil_iff.mpr (fun a ha => by
              have : a ≠ k := fun h => hk (h ▸ ha)
              simp [this])
          rw [this]
          rfl
        simp [List.filter_append, h0]

theorem phraseCounts_char (data : List PRow) :
    phraseCounts data =
      (firstDedup (allPhrases data)).map
        (fun p => (p, ((allPhrases data).filter (fun x => x == p)).length)) :=
  foldl_bumpKey_counts (allPhrases data)

theorem phraseCounts_no_index (data : List PRow) :
    ∀ e ∈ phraseCounts data, isArrayIndex e.1 = false := by
  intro e he
  rw [phraseCounts_char] at he
  obtain ⟨p, hp, rfl⟩ := List.mem_map.mp he
  exact isArrayIndex_of_space (allPhrases_space data p (mem_firstDedup.mp hp))

theorem length_insertBy {le : α → α → Bool} (x : α) (l : List α) :
    (insertBy le x l).length = l.length + 1 := by
  induction l with
  | nil => rfl
  | cons y ys ih =>
    rw [insertBy]
    by_cases h : le x y = true
    · rw [if_pos h]
      rfl
    · rw [if_neg h, List.length_cons, ih, List.length_cons]

theorem length_sortBy {le : α → α → Bool} (l : List α) :
    (sortBy le l).length = l.length := by
  induction l with
  | nil => rfl
  | cons x xs ih =>
    show (insertBy le x (sortBy le xs)).length = _
    rw [length_insertBy, ih, List.length_cons]

/-- **C6 (amended).** For every message, tokenization yields exactly `n − 1`
two-token windows and `n − 2` three-token windows from a token list of
length `n` (none when `n < 2` resp. `n < 3`); every `topPhrases` entry
carries a phrase together with its exact total occurrence count, which is at
least 3 (so a phrase occurring exactly 2 times never appears); `topPhrases`
has at most 30 entries and is sorted by descending count; and whenever at
most 30 phrases reach count ≥ 3, every phrase occurring at least 3 times —
in particular exactly 3 times — is included. (Unconditional inclusion fails:
the 30-entry cap can evict a count-3 phrase, see the counterexample.) -/
theorem topPhrases_spec (data : List PRow) :
    (∀ msg : String,
      (phrases2 (phraseTokens msg)).length = (phraseTokens msg).length - 1 ∧
      (phrases3 (phraseTokens msg)).length = (phraseTokens msg).length - 2) ∧
    (∀ e ∈ topPhrases data, 3 ≤ e.2 ∧
      e.2 = ((allPhrases data).filter (fun x => x == e.1)).length) ∧
    (topPhrases data).length ≤ 30 ∧
    (topPhrases data).Pairwise (fun a b => b.2 ≤ a.2) ∧
    (((phraseCounts data).filter (fun e => 3 ≤ e.2)).length ≤ 30 →
      ∀ p ∈ allPhrases data,
        3 ≤ ((allPhrases data).filter (fun x => x == p)).length →
        (p, ((allPhrases data).filter (fun x => x == p)).length) ∈
          topPhrases data) := by
  have hents : jsObjEntries (phraseCounts data) = phraseCounts data :=
    jsObjEntries_of_no_index (phraseCounts_no_index data)
  refine ⟨fun msg => ⟨length_phrases2 _, length_phrases3 _⟩, ?_, ?_, ?_, ?_⟩
  · intro e he
    have hs : e ∈ sortBy (fun a b => b.2 ≤ a.2)
        ((jsObjEntries (phraseCounts data)).filter (fun e => 3 ≤ e.2)) :=
      List.take_subset _ _ he
    have hf := mem_sortBy.mp hs
    rw [hents] at hf
    have h3 := (List.mem_filter.mp hf).2
    have hE := (List.mem_filter.mp hf).1
    rw [phraseCounts_char] at hE
    obtain ⟨p, _, rfl⟩ := List.mem_map.mp hE
    exact ⟨by simpa using h3, rfl⟩
  · exact le_trans (List.length_take_le _ _) (le_refl 30)
  · have hp : (sortBy (fun a b => b.2 ≤ a.2)
        ((jsObjEntries (phraseCounts data)).filter
          (fun e => 3 ≤ e.2))).Pairwise
        (fun a b => ((fun a b : String × Nat => decide (b.2 ≤ a.2)) a b)
          = true) := by
      apply pairwise_sortBy
      · intro a b
        rcases Nat.le_total b.2 a.2 with h | h
        · exact Or.inl (by simpa using h)
        · exact Or.inr (by simpa using h)
      · intro a _ b _ c _ hab hbc
        have h1 : b.2 ≤ a.2 := by simpa using hab
        have h2 : c.2 ≤ b.2 := by simpa using hbc
        simpa using le_trans h2 h1
    exact (hp.sublist (List.take_sublist _ _)).imp (fun h => by simpa using h)
  · intro hcap p hp h3
    have hmem : (p, ((allPhrases data).filter (fun x => x == p)).length) ∈
        phraseCounts data := by
      rw [phraseCounts_char]
      exact List.mem_map.mpr ⟨p, mem_firstDedup.mpr hp, rfl⟩
    have hfil : (p, ((allPhrases data).filter (fun x => x == p)).length) ∈
        (jsObjEntries (phraseCounts data)).filter (fun e => 3 ≤ e.2) := by
      rw [hents]
      exact List.mem_filter.mpr ⟨hmem, by simpa using h3⟩
    have hsorted : (p, ((allPhrases data).filter (fun x => x == p)).length) ∈
        sortBy (fun a b => b.2 ≤ a.2)
          ((jsObjEntries (phraseCounts data)).filter (fun e => 3 ≤ e.2)) :=
      mem_sortBy.mpr hfil
    rw [topPhrases, List.take_of_length_le]
    · exact hsorted
    · rw [length_sortBy, hents]
      exact hcap

set_option maxRecDepth 200000 in
/-- **C6 counterexample.** In `c6rows` the 2-gram `"be bf"` occurs exactly 3
times, yet `topPhrases` (capped at 30 entries) does not contain it: 61
phrases reach count 3 and the 31st and later ones are cut off, refuting the
unconditional "occurring exactly 3 times is included". -/
theorem topPhrases_cap_cex :
    ((allPhrases c6rows).filter (fun x => x == "be bf")).length = 3 ∧
    (∀ e ∈ topPhrases c6rows, e.1 ≠ "be bf") ∧
    (topPhrases c6rows).length = 30 := by
  decide

end WhatsApp
